import Mathlib

/-!
Verification development for the spell-coven-mono image-to-index pipeline
(packages/mtg-image-db).  The Lean definitions below are shallow embeddings
of the Python source: pure data transformations become Lean functions, the
file-system and network effects become explicit state passing, and the
thread-pool scheduler becomes an explicit event-trace machine.
-/

namespace MtgImageDb

/-! ## Image validation (helpers/validation.py)

A cached file is abstracted by what the PIL calls can observe of it:
whether it is present on disk, its byte size, and whether the two PIL
stages raise.  The field verifyErr models the exception (if any) raised
by the first stage, Image.open followed by img.verify, and loadErr models
the exception raised by the second stage, Image.open followed by img.load.
-/

structure ImgFile where
  existsOnDisk : Bool
  size : Nat
  verifyErr : Option String
  loadErr : Option String

/-- Shallow embedding of validate_image.  The result is the returned pair
(is_valid, error_message) together with the number of times the function
attempted to open the file (each PIL stage opens it once). -/
def validate_image (f : ImgFile) : Bool × Option String × Nat :=
  if f.existsOnDisk = false then (false, some "File does not exist", 0)
  else if f.size = 0 then (false, some "File is empty (0 bytes)", 0)
  else
    match f.verifyErr with
    | some e => (false, some e, 1)
    | none =>
      match f.loadErr with
      | some e => (false, some e, 2)
      | none => (true, none, 2)

/-! ## Cache scan of build_embeddings.py (_validate_cache_worker)

The worker classifies every record as missing, invalid, or valid; note
that it takes no validate_cache parameter in the source. -/

inductive RecStatus where
  | missing
  | invalid (reason : String)
  | valid
deriving DecidableEq

def isMissing : RecStatus → Bool
  | .missing => true
  | _ => false

def isInvalid : RecStatus → Bool
  | .invalid _ => true
  | _ => false

def isValidRec : RecStatus → Bool
  | .valid => true
  | _ => false

/-- Shallow embedding of _validate_cache_worker: a record is missing when
its cache file is absent or empty, otherwise it is classified by
validate_image. -/
def _validate_cache_worker (f : ImgFile) : RecStatus :=
  if f.existsOnDisk = false || f.size = 0 then .missing
  else
    match (validate_image f).2.1 with
    | some e => .invalid e
    | none => .valid

/-- Progress-bar label chosen in build_embeddings_from_cache; the only
place before the manifest where the validate_cache flag is consulted. -/
def scan_desc (validate_cache : Bool) : String :=
  if validate_cache then "Validating cached images (parallel)"
  else "Checking image cache (parallel)"

/-- The cache-scan phase of build_embeddings_from_cache: every record is
passed through _validate_cache_worker; the validate_cache flag only
selects the progress label.  Returns (statuses, missing count,
validation_failed count, label). -/
def cache_scan (validate_cache : Bool) (files : List ImgFile) :
    List RecStatus × Nat × Nat × String :=
  let statuses := files.map _validate_cache_worker
  (statuses, statuses.countP isMissing, statuses.countP isInvalid,
   scan_desc validate_cache)

/-- The per-record path list produced by the scan: a position keeps its
cache path only when the worker classified it as valid. -/
def scan_keepsPosition (validate_cache : Bool) (files : List ImgFile) : List Bool :=
  (cache_scan validate_cache files).1.map isValidRec

/-- Manifest statistic validation_failures as written by
build_embeddings_from_cache: the measured count when validate_cache is
set, and the literal 0 otherwise. -/
def manifest_validation_failures (validate_cache : Bool) (vfailed : Nat) : Nat :=
  if validate_cache then vfailed else 0

/-! ## Fatal versus non-fatal failures in build_embeddings_from_cache (C7)

A build run is driven by the per-record classification together with a
per-record decode outcome (only meaningful for valid records).  The two
SystemExit sites of the source are the only fatal exits. -/

structure BuildSummary where
  total_records : Nat
  missing_from_cache : Nat
  validation_failures : Nat
  successfully_embedded : Nat
  missing_images : List RecStatus
  validation_failure_list : List RecStatus
  missing_shown : List RecStatus
  validation_shown : List RecStatus
deriving DecidableEq

/-- Shallow embedding of the control flow of build_embeddings_from_cache.
Each input is a record paired with the decode outcome of its cached image
(the second component is consulted only for valid records).  Per-record
failures are accumulated; the run errors out exactly at the two
SystemExit statements of the source: zero records, or zero valid images.
The shown lists model the first-ten display of the failure lists. -/
def build_embeddings_run (recs : List (RecStatus × Bool)) :
    Except String BuildSummary :=
  if recs.length = 0 then
    .error "ERROR: No records to embed. Cannot create FAISS index from zero vectors."
  else
    let statuses := recs.map Prod.fst
    let missingList := statuses.filter isMissing
    let invalidList := statuses.filter isInvalid
    let valid_count := statuses.countP isValidRec
    if valid_count = 0 then
      .error "ERROR: No valid images to embed. Cannot create FAISS index from zero vectors."
    else
      .ok {
        total_records := recs.length
        missing_from_cache := missingList.length
        validation_failures := invalidList.length
        successfully_embedded := recs.countP (fun r => isValidRec r.1 && r.2)
        missing_images := missingList
        validation_failure_list := invalidList
        missing_shown := missingList.take 10
        validation_shown := invalidList.take 10 }

/-! ## Retrying fetch client (helpers/session.py) for C5

The repository configures the retry behaviour of its HTTP stack in
DownloadSession.__init__; the values below are the exact configuration
literals of that constructor.  The retry loop itself executes inside the
HTTP library and is not part of the repository sources, so it is
modelled from the spec below. -/

namespace DownloadSession

/-- The status_forcelist literal passed to the retry strategy. -/
def status_forcelist : List Nat := [429, 500, 502, 503, 504]

/-- The allowed_methods literal passed to the retry strategy. -/
def allowed_methods : List String := ["GET", "HEAD"]

/-- The respect_retry_after_header literal passed to the retry strategy. -/
def respect_retry_after_header : Bool := true

/-- Default max_retries of DownloadSession.__init__. -/
def default_max_retries : Nat := 5

/-- Default backoff_factor of DownloadSession.__init__ (delays measured in
whole time units so the factor is a natural number here). -/
def default_backoff_factor : Nat := 1

/-- One server interaction as the client observes it: a successful body, a
transient connection-level failure (connection reset or timeout), or an
HTTP status possibly carrying a retry-after hint. -/
inductive Resp where
  | success
  | transient
  | status (code : Nat) (retryAfter : Option Nat)
deriving DecidableEq

/-- A condition is retried exactly when it is connection-level transient or
its status code is in the configured forcelist. -/
def retryable : Resp → Bool
  | .success => false
  | .transient => true
  | .status c _ => decide (c ∈ status_forcelist)

inductive FetchResult where
  | ok (attempts : Nat)
  | nonRetryable (code : Nat) (attempts : Nat)
  | exhausted (attempts : Nat)
deriving DecidableEq

def attemptsOf : FetchResult → Nat
  | .ok a => a
  | .nonRetryable _ a => a
  | .exhausted a => a

/-- Exponential backoff before retry number k+1: the base delay doubles
each attempt and is capped at the maximum delay. -/
def backoff_delay (base cap k : Nat) : Nat := min cap (base * 2 ^ k)

/-- Delay slept after attempt k: a server-provided retry-after hint is
honored when present, otherwise the exponential backoff applies. -/
def sleep_for (base cap k : Nat) : Resp → Nat
  | .status _ (some ra) => ra
  | _ => backoff_delay base cap k

/-- Modelled from the spec: the retry loop of the Retrying Fetch Client
(it runs inside the HTTP library, configured by DownloadSession.__init__
and absent from the repository sources).  Attempt number k consults the
response sequence; retryable conditions are retried while retries remain,
sleeping per sleep_for; a non-retryable status ends the fetch at once.
Returns the result together with the list of delays slept. -/
def fetch_loop (base cap : Nat) (responses : Nat → Resp) :
    Nat → Nat → FetchResult × List Nat
  | retriesLeft, k =>
    match responses k with
    | .success => (.ok (k + 1), [])
    | .transient =>
      (match retriesLeft with
       | 0 => (.exhausted (k + 1), [])
       | rl + 1 =>
         let rest := fetch_loop base cap responses rl (k + 1)
         (rest.1, sleep_for base cap k .transient :: rest.2))
    | .status c ra =>
      if c ∈ status_forcelist then
        (match retriesLeft with
         | 0 => (.exhausted (k + 1), [])
         | rl + 1 =>
           let rest := fetch_loop base cap responses rl (k + 1)
           (rest.1, sleep_for base cap k (.status c ra) :: rest.2))
      else (.nonRetryable c (k + 1), [])

/-- Modelled from the spec: a full fetch starts at attempt 0 with the
configured maximum retry count. -/
def fetch (max_retries base cap : Nat) (responses : Nat → Resp) :
    FetchResult × List Nat :=
  fetch_loop base cap responses max_retries 0

end DownloadSession

/-! ## The legacy retry loop of download_image (build_mtg_faiss.py)

When download_image is called without a session — as build_index does —
it falls back to its own retry loop: for attempt in 1..retries it issues
requests.get plus raise_for_status inside a blanket except Exception, so
every HTTP error status (404 included) and every connection-level error
is caught and retried; between attempts it sleeps 0.8 * attempt seconds
(linear, uncapped, no retry-after handling), and on the last failed
attempt it returns None. -/

/-- Whether one server interaction makes the legacy try-block raise:
requests.get raises on connection-level failures, and raise_for_status
raises HTTPError for every status of 400 or above. -/
def legacy_raises : DownloadSession.Resp → Bool
  | .success => false
  | .transient => true
  | .status c _ => decide (400 ≤ c)

/-- The sleep before the next legacy attempt, time.sleep(0.8 * attempt),
measured in tenths of a second: 8 * attempt. -/
def legacy_sleep (attempt : Nat) : Nat := 8 * attempt

/-- Shallow embedding of the legacy retry loop of download_image: given
the remaining attempt budget and the 1-based number of the current
attempt, return (success, attempts made, sleeps performed).  A raising
attempt with budget left sleeps legacy_sleep and retries; the last
raising attempt returns failure at once; a zero budget means the for
loop never runs. -/
def legacy_fetch_loop (responses : Nat → DownloadSession.Resp) :
    Nat → Nat → Bool × Nat × List Nat
  | 0, k => (false, k - 1, [])
  | rem + 1, k =>
    if legacy_raises (responses k) then
      match rem with
      | 0 => (false, k, [])
      | _ + 1 =>
        let rest := legacy_fetch_loop responses rem (k + 1)
        (rest.1, rest.2.1, legacy_sleep k :: rest.2.2)
    else (true, k, [])

/-- The whole legacy retry loop: attempts run from 1 to retries
(download_image defaults retries to 3). -/
def download_image_retry (retries : Nat)
    (responses : Nat → DownloadSession.Resp) : Bool × Nat × List Nat :=
  legacy_fetch_loop responses retries 1

/-! ## Vector accumulator and index assembly (build_embeddings.py) for C1, C3, C4

The embedding phase of build_embeddings_from_cache keeps two parallel
arrays sized by the record list: a zero-initialised vector buffer vecs
and a boolean flag array good.  Every completed decode task is tagged
with its original record index and written to exactly that slot; both
arrays are updated together.  The types are abstract: P is a cache path,
Img a decoded image, V a vector, with v0 the zero vector.  The per-image
embedding function embedOne abstracts one row of encode_images (the
source maps each batch image to one output row in batch order). -/

structure Accumulator (V : Type) where
  vecs : List V
  good : List Bool
deriving DecidableEq

/-- The zero-initialised accumulator: np.zeros for vecs and good. -/
def initAcc (V : Type) (n : Nat) (v0 : V) : Accumulator V :=
  ⟨List.replicate n v0, List.replicate n false⟩

/-- One accumulator write: vecs[i] = v and good[i] = True, as performed
for each item of an embedded batch. -/
def writeSlot {V : Type} (acc : Accumulator V) (i : Nat) (v : V) : Accumulator V :=
  ⟨acc.vecs.set i v, acc.good.set i true⟩

/-- Applying a list of tagged writes in order. -/
def applyWrites {V : Type} (acc : Accumulator V) (ws : List (Nat × V)) : Accumulator V :=
  ws.foldl (fun a w => writeSlot a w.1 w.2) acc

/-- The outcome of fully processing record position i: none when its
cache path is absent (missing or invalid) or when load_image_rgb fails,
otherwise the embedding of the decoded image. -/
def slotResult {P Img V : Type} (paths : List (Option P)) (decode : P → Option Img)
    (embedOne : Img → V) (i : Nat) : Option V :=
  match paths.getD i none with
  | none => none
  | some p => (decode p).map embedOne

/-- The tagged writes generated when decode tasks complete in the given
order of record indices: failed positions produce no write, successful
ones produce exactly one write tagged with their original index. -/
def writesFor {P Img V : Type} (paths : List (Option P)) (decode : P → Option Img)
    (embedOne : Img → V) (order : List Nat) : List (Nat × V) :=
  order.filterMap fun i => (slotResult paths decode embedOne i).map (fun v => (i, v))

/-- Processing a batch partition of the completion order: each batch is
embedded and written as a block, as the scheduler does at each full
batch and at the trailing flush. -/
def runBatches {V : Type} (acc : Accumulator V) (batches : List (List (Nat × V))) :
    Accumulator V :=
  batches.foldl applyWrites acc

/-- Accumulator state after the first k completed writes of the strictly
sequential in-order schedule; k ranges over the whole embedding phase. -/
def accAfter {P Img V : Type} (paths : List (Option P)) (decode : P → Option Img)
    (embedOne : Img → V) (v0 : V) (k : Nat) : Accumulator V :=
  applyWrites (initAcc V paths.length v0)
    ((writesFor paths decode embedOne (List.range paths.length)).take k)

/-- Final accumulator state of the strictly sequential in-order
schedule. -/
def finalAcc {P Img V : Type} (paths : List (Option P)) (decode : P → Option Img)
    (embedOne : Img → V) (v0 : V) : Accumulator V :=
  applyWrites (initAcc V paths.length v0)
    (writesFor paths decode embedOne (List.range paths.length))

/-- Indices kept for the final index: np.where(good), in increasing
record-position order. -/
def kept (good : List Bool) : List Nat :=
  (List.range good.length).filter fun i => good.getD i false

/-- Row gather: X = vecs[kept] and meta = records[kept]. -/
def gather {A : Type} (d : A) (rows : List A) (ks : List Nat) : List A :=
  ks.map fun i => rows.getD i d

/-- The explicit identifier list passed to add_with_ids:
np.arange(X.shape[0]). -/
def index_ids (m : Nat) : List Nat := List.range m

/-! ## Download orchestrator (download_images.py) for C9

The cache directory is a map from URL (safe_filename is a deterministic
hash of the URL, so cache entries are keyed by URL here) to the optional
byte content of the file at that path.  The network is a deterministic
function from URL to optional content: some bytes on a successful
response plus atomic write, none when the request or the atomic write
fails (in which case atomic_write_stream leaves no file). -/

abbrev Url := Nat

abbrev Content := List Nat

abbrev CacheFS := Url → Option Content

/-- A cache entry counts as present only when it is a non-empty file. -/
def cacheValid : Option Content → Bool
  | some c => !c.isEmpty
  | none => false

def fsUpdate (fs : CacheFS) (u : Url) (v : Option Content) : CacheFS :=
  fun w => if w = u then v else fs w

/-- Shallow embedding of download_single_image: return the cached path
untouched when a non-empty file exists; unlink a zero-byte remnant; then
fetch and atomically write.  The result is the new file system, the
success flag, and the number of network requests issued. -/
def download_single_image (net : Url → Option Content) (fs : CacheFS) (u : Url) :
    CacheFS × Bool × Nat :=
  if cacheValid (fs u) then (fs, true, 0)
  else
    let fs1 := if fs u = some [] then fsUpdate fs u none else fs
    match net u with
    | some c => (fsUpdate fs1 u (some c), true, 1)
    | none => (fs1, false, 1)

/-- Shallow embedding of the download loop of download_all_images over a
record list, counting total network requests. -/
def download_all_images (net : Url → Option Content) (fs : CacheFS) :
    List Url → CacheFS × Nat
  | [] => (fs, 0)
  | u :: us =>
    let step := download_single_image net fs u
    let rest := download_all_images net step.1 us
    (rest.1, step.2.2 + rest.2)

/-! ## Atomic cache writes (helpers/atomic_io.py) and the legacy download
fallback of build_mtg_faiss.py for C2 -/

namespace AtomicWrite

/-- File-system state around one cache write: the byte content at the
target path and at its temporary .part sibling; none means no file. -/
structure FS where
  target : Option (List Nat)
  temp : Option (List Nat)
deriving DecidableEq

/-- Cumulative file contents after each chunk write, starting from cur;
empty keep-alive chunks are filtered out as in the source. -/
def chunkProgress (cur : List Nat) : List (List Nat) → List (List Nat)
  | [] => []
  | c :: cs =>
    let nxt := if c.isEmpty then cur else cur ++ c
    nxt :: chunkProgress nxt cs

/-- Content of the temporary file when the stream has been fully
written. -/
def tempFinal (chunks : List (List Nat)) : List Nat :=
  (chunkProgress [] chunks).getLastD []

set_option linter.unusedVariables false in
/-- Shallow embedding of a completed atomic_write_stream: open the .part
sibling, write all chunks, flush, fsync, then atomically os.replace onto
the target; returns True.  The prior state fs is fully replaced. -/
def atomic_write_stream (fs : FS) (chunks : List (List Nat)) : FS × Bool :=
  ({ target := some (tempFinal chunks), temp := none }, true)

/-- Every intermediate file-system state of atomic_write_stream, in
execution order: initial, after opening the temporary file, after each
chunk write (flush and fsync do not change file contents), and after the
final atomic rename.  A kill at any point leaves one of these states. -/
def writeStates (fs : FS) (chunks : List (List Nat)) : List FS :=
  [fs, { fs with temp := some [] }]
    ++ (chunkProgress [] chunks).map (fun t => { fs with temp := some t })
    ++ [(atomic_write_stream fs chunks).1]

/-- Shallow embedding of the exception path of atomic_write_stream: an
exception after the first k execution steps (any point before the rename
has completed) triggers the cleanup that unlinks the temporary file, and
False is returned. -/
def atomic_write_stream_fail (fs : FS) (chunks : List (List Nat)) (k : Nat) :
    FS × Bool :=
  let s := (writeStates fs chunks).dropLast.getD k fs
  ({ target := s.target, temp := none }, false)

/-- One attempt of the legacy retry loop of download_image: either the
request raises before the target file is opened, or the file is opened
for writing and the stream delivers the given chunks, completing only
when the flag says so. -/
inductive LegacyAttempt where
  | noConnect
  | streamed (chunks : List (List Nat)) (completed : Bool)

/-- The retry loop of the legacy fallback of download_image: each
streamed attempt opens the target path directly for writing (truncating
it) and writes chunks straight to it, so a failed attempt leaves the
partial content at the target path; after the last attempt the function
returns None while the partial file remains. -/
def legacyLoop (fp : Option (List Nat)) : List LegacyAttempt → Option (List Nat) × Bool
  | [] => (fp, false)
  | .noConnect :: rest => legacyLoop fp rest
  | .streamed chunks completed :: rest =>
    let fp1 := some (tempFinal chunks)
    if completed then (fp1, true) else legacyLoop fp1 rest

/-- Shallow embedding of download_image when no session is supplied (as
build_index calls it): return the cached file when present and
non-empty, otherwise run the legacy retry loop that writes directly to
the target path. -/
def download_image_legacy (fp : Option (List Nat))
    (attempts : List LegacyAttempt) : Option (List Nat) × Bool :=
  if cacheValid fp then (fp, true) else legacyLoop fp attempts

end AtomicWrite

/-! ## Decode and embedding scheduler of build_embeddings_from_cache for C8

The main thread of the scheduler is embedded as an explicit event-trace
machine.  The events are exactly the observable actions of the main loop:
submitting a decode task to the executor, collecting a completed decode
future, and the beginning and end of a synchronous encode_images call.
The completion order of decode tasks is supplied from outside as a
schedule: at each wait(FIRST_COMPLETED) the listed pending tasks
complete. -/

namespace Scheduler

inductive Ev where
  | submit (i : Nat)
  | collect (i : Nat)
  | embedStart (batch : List Nat)
  | embedEnd
deriving DecidableEq

def isSubmit : Ev → Bool
  | .submit _ => true
  | _ => false

def isCollect : Ev → Bool
  | .collect _ => true
  | _ => false

def countSubmit : List Ev → Nat
  | [] => 0
  | e :: t => countSubmit t + (if isSubmit e then 1 else 0)

def countCollect : List Ev → Nat
  | [] => 0
  | e :: t => countCollect t + (if isCollect e then 1 else 0)

/-- The refill_pending loop: submit decode tasks one at a time while the
in-flight count is below the cap and records remain.  Returns the
emitted events together with the new remaining and pending lists. -/
def refill (cap : Nat) : List Nat → List Nat → List Ev × List Nat × List Nat
  | [], pending => ([], [], pending)
  | r :: rs, pending =>
    if pending.length < cap then
      let res := refill cap rs (pending ++ [r])
      (Ev.submit r :: res.1, res.2)
    else ([], r :: rs, pending)

/-- Processing one wait(FIRST_COMPLETED) result: each completed future is
collected, appended to the current batch, and a full batch is embedded
synchronously on the spot (the embedStart and embedEnd events are
adjacent because encode_images runs on the scheduler thread).  Returns
the events together with the new pending and batch lists. -/
def collectGroup (batchSize : Nat) : List Nat → List Nat → List Nat →
    List Ev × List Nat × List Nat
  | [], pending, batch => ([], pending, batch)
  | c :: cs, pending, batch =>
    if c ∈ pending then
      let batch1 := batch ++ [c]
      if batch1.length = batchSize then
        let res := collectGroup batchSize cs (pending.erase c) []
        (Ev.collect c :: Ev.embedStart batch1 :: Ev.embedEnd :: res.1, res.2)
      else
        let res := collectGroup batchSize cs (pending.erase c) batch1
        (Ev.collect c :: res.1, res.2)
    else collectGroup batchSize cs pending batch

/-- The trailing flush of a non-empty partial batch, performed once the
loop has drained. -/
def flushBatch (batch : List Nat) : List Ev :=
  if batch.isEmpty then [] else [Ev.embedStart batch, Ev.embedEnd]

/-- The main scheduler loop: while decode futures are pending, wait for
completions, process them, then refill the in-flight window.  The
completion schedule drives the nondeterminism; when it is exhausted the
trace simply stops (a safety-truncated prefix of the real run). -/
def schedLoop (cap batchSize : Nat) :
    List (List Nat) → List Nat → List Nat → List Nat → List Ev
  | [], _, pending, batch => if pending.isEmpty then flushBatch batch else []
  | cs :: rest, remaining, pending, batch =>
    if pending.isEmpty then flushBatch batch
    else
      (collectGroup batchSize cs pending batch).1
        ++ ((refill cap remaining (collectGroup batchSize cs pending batch).2.1).1
          ++ schedLoop cap batchSize rest
              (refill cap remaining (collectGroup batchSize cs pending batch).2.1).2.1
              (refill cap remaining (collectGroup batchSize cs pending batch).2.1).2.2
              (collectGroup batchSize cs pending batch).2.2)

/-- The full trace of the embedding phase for the given list of record
indices with valid paths: an initial refill, then the main loop. -/
def schedTrace (cap batchSize : Nat) (valids : List Nat)
    (schedule : List (List Nat)) : List Ev :=
  (refill cap valids []).1
    ++ schedLoop cap batchSize schedule
        (refill cap valids []).2.1 (refill cap valids []).2.2 []

/-- Checks that every embedStart event is immediately followed by its
embedEnd event, so nothing (in particular no submission) happens on the
scheduler thread while a batch is being embedded. -/
def embedsAtomicB : List Ev → Bool
  | [] => true
  | Ev.embedStart _ :: Ev.embedEnd :: rest => embedsAtomicB rest
  | Ev.embedStart _ :: _ => false
  | _ :: rest => embedsAtomicB rest

/-- True when the last event of the list is an embedStart (used to state
that trace blocks never dangle an open embed). -/
def endsWithStart : List Ev → Bool
  | [] => false
  | [Ev.embedStart _] => true
  | [_] => false
  | _ :: rest => endsWithStart rest

/-- Decides the claim that some new decode task is admitted while a batch
is being embedded: a submit event strictly between an embedStart and its
matching embedEnd, which in an atomic-embed trace means right after the
embedStart. -/
def hasSubmitDuringEmbed (tr : List Ev) : Bool :=
  (List.range tr.length).any fun n =>
    (match tr.getD n Ev.embedEnd with
     | Ev.embedStart _ => true
     | _ => false) &&
    isSubmit (tr.getD (n + 1) Ev.embedEnd)

end Scheduler

/-! ## Theorems for claims C6, C7, C10 -/

/-- C6: validate_image returns invalid for a missing file and for a
zero-byte file without attempting to open the file (open count 0), is
valid exactly when both the verify stage and the full-decode stage
succeed on a present non-empty file, and every invalid result carries a
reason. -/
theorem validate_image_spec (f : ImgFile) :
    (f.existsOnDisk = false →
      validate_image f = (false, some "File does not exist", 0)) ∧
    (f.size = 0 →
      (validate_image f).1 = false ∧ (validate_image f).2.2 = 0) ∧
    ((validate_image f).1 = true ↔
      f.existsOnDisk = true ∧ f.size ≠ 0 ∧ f.verifyErr = none ∧ f.loadErr = none) ∧
    ((validate_image f).1 = false → (validate_image f).2.1.isSome = true) := by
  obtain ⟨e, s, v, l⟩ := f
  cases e <;> cases v <;> cases l <;>
    by_cases hs : s = 0 <;>
    simp_all [validate_image]

/-- Witness for validate_image_spec at concrete files. -/
theorem validate_image_spec_witness :
    validate_image ⟨false, 3, none, none⟩ = (false, some "File does not exist", 0) ∧
    ((validate_image ⟨true, 0, none, none⟩).1 = false ∧
      (validate_image ⟨true, 0, none, none⟩).2.2 = 0) ∧
    (validate_image ⟨true, 5, some "bad", none⟩).2.1.isSome = true :=
  ⟨(validate_image_spec ⟨false, 3, none, none⟩).1 rfl,
   (validate_image_spec ⟨true, 0, none, none⟩).2.1 rfl,
   (validate_image_spec ⟨true, 5, some "bad", none⟩).2.2.2 rfl⟩

/-- C7: the build run aborts with a fatal error exactly when zero records
were loaded or zero valid images survived; otherwise every per-record
failure is non-fatal and is only recorded in the failure lists (bounded
by the record count, displayed lists bounded by ten) and in the summary
counts. -/
theorem build_run_failure_handling (recs : List (RecStatus × Bool)) :
    ((∃ e, build_embeddings_run recs = .error e) ↔
      recs.length = 0 ∨ (recs.map Prod.fst).countP isValidRec = 0) ∧
    (∀ s, build_embeddings_run recs = .ok s →
      s.total_records = recs.length ∧
      s.missing_from_cache = (recs.map Prod.fst).countP isMissing ∧
      s.validation_failures = (recs.map Prod.fst).countP isInvalid ∧
      s.successfully_embedded = recs.countP (fun r => isValidRec r.1 && r.2) ∧
      s.missing_images.length ≤ recs.length ∧
      s.validation_failure_list.length ≤ recs.length ∧
      s.missing_shown.length ≤ 10 ∧
      s.validation_shown.length ≤ 10) := by
  unfold build_embeddings_run
  by_cases h0 : recs.length = 0
  · simp [h0]
  · by_cases hv : (recs.map Prod.fst).countP isValidRec = 0
    · simp [h0, hv]
    · simp only [h0, hv, if_false, if_neg h0, if_neg hv]
      constructor
      · constructor
        · rintro ⟨e, he⟩
          exact absurd he (by simp)
        · rintro (h | h) <;> simp_all
      · intro s hs
        injection hs with hs
        subst hs
        refine ⟨rfl, ?_, ?_, rfl, ?_, ?_, ?_, ?_⟩
        · simp [List.countP_eq_length_filter]
        · simp [List.countP_eq_length_filter]
        · calc ((recs.map Prod.fst).filter isMissing).length
              ≤ (recs.map Prod.fst).length := (List.filter_sublist _).length_le
            _ = recs.length := List.length_map _ _
        · calc ((recs.map Prod.fst).filter isInvalid).length
              ≤ (recs.map Prod.fst).length := (List.filter_sublist _).length_le
            _ = recs.length := List.length_map _ _
        · simp
        · simp

/-- Witness for build_run_failure_handling: a run whose only valid-image
count is zero is fatal. -/
theorem build_run_failure_handling_witness :
    (build_embeddings_run [(RecStatus.missing, true)]).isOk = false := by
  have h := (build_run_failure_handling [(RecStatus.missing, true)]).1.2
    (Or.inr (by rfl))
  obtain ⟨e, he⟩ := h
  rw [he]
  rfl

/-- C10: the two-stage validation is executed for every cached file no
matter how the validate_cache flag is set (only the progress label
differs), positions classified invalid are excluded from the kept path
list either way, and when the flag is false the manifest reports
validation_failures as the literal 0. -/
theorem validation_independent_of_flag (files : List ImgFile) :
    ((cache_scan true files).1 = files.map _validate_cache_worker ∧
     (cache_scan false files).1 = files.map _validate_cache_worker ∧
     (cache_scan true files).2.1 = (cache_scan false files).2.1 ∧
     (cache_scan true files).2.2.1 = (cache_scan false files).2.2.1) ∧
    (∀ (i : Nat) (r : String),
      (cache_scan false files).1[i]? = some (RecStatus.invalid r) →
      (scan_keepsPosition false files)[i]? = some false) ∧
    manifest_validation_failures false ((cache_scan false files).2.2.1) = 0 := by
  refine ⟨⟨rfl, rfl, rfl, rfl⟩, ?_, rfl⟩
  intro i r h
  unfold scan_keepsPosition
  rw [List.getElem?_map, h]
  rfl

/-! ### Lemmas about the download orchestrator (C9) -/

theorem download_single_image_invalid (net : Url → Option Content)
    (fs : CacheFS) (u : Url) (h : cacheValid (fs u) = false) :
    (download_single_image net fs u).1 u = net u ∧
    (download_single_image net fs u).2.2 = 1 ∧
    (∀ v, v ≠ u → (download_single_image net fs u).1 v = fs v) := by
  unfold download_single_image
  rw [h]
  simp only [Bool.false_eq_true, if_false]
  cases hn : net u with
  | some c =>
    refine ⟨by simp [fsUpdate], rfl, ?_⟩
    intro v hv
    by_cases he : fs u = some []
    · simp [he, fsUpdate, hv]
    · simp [he, fsUpdate, hv]
  | none =>
    by_cases he : fs u = some []
    · refine ⟨by simp [he, fsUpdate], rfl, ?_⟩
      intro v hv
      simp [he, fsUpdate, hv]
    · refine ⟨?_, rfl, ?_⟩
      · simp only [he, if_false]
        cases hf : fs u with
        | some c =>
          exfalso
          cases c with
          | nil => exact he hf
          | cons a t => rw [hf] at h; simp [cacheValid] at h
        | none => rfl
      · intro v hv
        simp [he]

theorem download_all_images_untouched (net : Url → Option Content) :
    ∀ (us : List Url) (fs : CacheFS) (u : Url), u ∉ us →
      (download_all_images net fs us).1 u = fs u := by
  intro us
  induction us with
  | nil => intro fs u _; rfl
  | cons r t iht =>
    intro fs u hmem
    have hne : u ≠ r := fun h => hmem (h ▸ List.mem_cons_self r t)
    have h1 :
        (download_all_images net fs (r :: t)).1 u
          = (download_all_images net (download_single_image net fs r).1 t).1 u := rfl
    rw [h1, iht _ u (fun h => hmem (List.mem_cons.mpr (Or.inr h)))]
    by_cases hv : cacheValid (fs r) = true
    · unfold download_single_image
      rw [hv]
      simp
    · exact (download_single_image_invalid net fs r
        (Bool.eq_false_iff.mpr hv)).2.2 u hne

theorem download_all_images_synced (net : Url → Option Content) :
    ∀ (us : List Url) (fs : CacheFS) (u : Url), u ∈ us →
      cacheValid ((download_all_images net fs us).1 u) = true ∨
      (download_all_images net fs us).1 u = net u := by
  intro us
  induction us with
  | nil => intro fs u hu; cases hu
  | cons w rest ih =>
    intro fs u hu
    have hstep :
        download_all_images net fs (w :: rest)
          = ((download_all_images net (download_single_image net fs w).1 rest).1,
             (download_single_image net fs w).2.2
               + (download_all_images net (download_single_image net fs w).1 rest).2) := rfl
    rw [hstep]
    rcases List.mem_cons.mp hu with hw | hrest
    · subst hw
      by_cases hmem : u ∈ rest
      · exact ih (download_single_image net fs u).1 u hmem
      · rw [download_all_images_untouched net rest _ u hmem]
        by_cases hv : cacheValid (fs u) = true
        · left
          unfold download_single_image
          rw [hv]
          simpa using hv
        · right
          exact (download_single_image_invalid net fs u
            (Bool.eq_false_iff.mpr hv)).1
    · exact ih (download_single_image net fs w).1 u hrest

theorem download_all_images_fixed (net : Url → Option Content) :
    ∀ (us : List Url) (fs : CacheFS),
      (∀ u ∈ us, cacheValid (fs u) = true ∨ fs u = net u) →
      (download_all_images net fs us).1 = fs ∧
      (download_all_images net fs us).2
        = us.countP (fun u => !(cacheValid (fs u))) := by
  intro us
  induction us with
  | nil => intro fs _; exact ⟨rfl, rfl⟩
  | cons u rest ih =>
    intro fs h
    by_cases hv : cacheValid (fs u) = true
    · have hstep : download_single_image net fs u = (fs, true, 0) := by
        unfold download_single_image
        rw [hv]
        simp
      have hrest := ih fs (fun v hvmem => h v (List.mem_cons.mpr (Or.inr hvmem)))
      constructor
      · show (download_all_images net (download_single_image net fs u).1 rest).1 = fs
        rw [hstep]
        exact hrest.1
      · show (download_single_image net fs u).2.2
            + (download_all_images net (download_single_image net fs u).1 rest).2
            = (u :: rest).countP (fun v => !(cacheValid (fs v)))
        rw [hstep, List.countP_cons, hrest.2]
        simp [hv]
    · have hvf : cacheValid (fs u) = false := Bool.eq_false_iff.mpr hv
      have hnet : fs u = net u := by
        rcases h u (List.mem_cons_self u rest) with h1 | h1
        · exact absurd h1 hv
        · exact h1
      have hinv := download_single_image_invalid net fs u hvf
      have hfs : (download_single_image net fs u).1 = fs := by
        funext v
        by_cases hvu : v = u
        · subst hvu
          rw [hinv.1, ← hnet]
        · exact hinv.2.2 v hvu
      have hrest := ih fs (fun v hvmem => h v (List.mem_cons.mpr (Or.inr hvmem)))
      constructor
      · show (download_all_images net (download_single_image net fs u).1 rest).1 = fs
        rw [hfs]
        exact hrest.1
      · show (download_single_image net fs u).2.2
            + (download_all_images net (download_single_image net fs u).1 rest).2
            = (u :: rest).countP (fun v => !(cacheValid (fs v)))
        rw [hfs, hinv.2.1, hrest.2, List.countP_cons]
        simp [hvf]
        omega

/-- C9: a record whose cache file is present and non-empty is returned
without any network request and leaves the cache untouched; a zero-byte
remnant is removed and the record re-fetched; consequently a second
orchestrator run over the same record set and the same deterministic
network is a fixed point of the cache and issues requests only for the
entries that are still not valid (zero requests for already-valid
entries). -/
theorem download_orchestrator_idempotent (net : Url → Option Content)
    (fs0 : CacheFS) (us : List Url) :
    (∀ u, cacheValid (fs0 u) = true →
      download_single_image net fs0 u = (fs0, true, 0)) ∧
    (∀ u, fs0 u = some [] →
      (download_single_image net fs0 u).1 u = net u ∧
      (download_single_image net fs0 u).2.2 = 1) ∧
    (download_all_images net (download_all_images net fs0 us).1 us).1
      = (download_all_images net fs0 us).1 ∧
    (download_all_images net (download_all_images net fs0 us).1 us).2
      = us.countP (fun u => !(cacheValid ((download_all_images net fs0 us).1 u))) := by
  refine ⟨?_, ?_, ?_, ?_⟩
  · intro u h
    unfold download_single_image
    rw [h]
    simp
  · intro u h
    have hvf : cacheValid (fs0 u) = false := by rw [h]; rfl
    exact ⟨(download_single_image_invalid net fs0 u hvf).1,
           (download_single_image_invalid net fs0 u hvf).2.1⟩
  · exact (download_all_images_fixed net us (download_all_images net fs0 us).1
      (fun u hu => download_all_images_synced net us fs0 u hu)).1
  · exact (download_all_images_fixed net us (download_all_images net fs0 us).1
      (fun u hu => download_all_images_synced net us fs0 u hu)).2

/-- Witness for download_orchestrator_idempotent: a valid cached entry is
returned with zero requests, and a zero-byte remnant is re-fetched with
one request. -/
theorem download_orchestrator_idempotent_witness :
    download_single_image (fun u => if u = 0 then some [5] else none)
        (fun u => if u = 1 then some [7] else if u = 2 then some [] else none) 1
      = ((fun u => if u = 1 then some [7] else if u = 2 then some [] else none),
         true, 0) ∧
    (download_single_image (fun u => if u = 0 then some [5] else none)
        (fun u => if u = 1 then some [7] else if u = 2 then some [] else none) 2).2.2
      = 1 :=
  ⟨(download_orchestrator_idempotent (fun u => if u = 0 then some [5] else none)
      (fun u => if u = 1 then some [7] else if u = 2 then some [] else none) []).1
      1 rfl,
   ((download_orchestrator_idempotent (fun u => if u = 0 then some [5] else none)
      (fun u => if u = 1 then some [7] else if u = 2 then some [] else none) []).2.1
      2 rfl).2⟩

/-! ### Lemmas about the accumulator and index assembly (C1, C3, C4) -/

theorem getD_of_getElem?_eq {A : Type} (l : List A) (i : Nat) (d x : A)
    (h : l[i]? = some x) : l.getD i d = x := by
  rw [List.getD_eq_getElem?_getD, h]
  rfl

theorem mem_kept (good : List Bool) (i : Nat) :
    i ∈ kept good ↔ i < good.length ∧ good.getD i false = true := by
  simp [kept, List.mem_filter, List.mem_range]

theorem kept_sorted (good : List Bool) : (kept good).Pairwise (· < ·) :=
  List.Pairwise.sublist (List.filter_sublist _) (List.pairwise_lt_range _)

theorem map_fst_writesFor {P Img V : Type} (paths : List (Option P))
    (decode : P → Option Img) (embedOne : Img → V) (order : List Nat) :
    (writesFor paths decode embedOne order).map Prod.fst
      = order.filter fun i => (slotResult paths decode embedOne i).isSome := by
  induction order with
  | nil => rfl
  | cons j t ih =>
    have ih2 : (List.filterMap
        (fun i => Option.map (fun v => (i, v)) (slotResult paths decode embedOne i)) t).map
          Prod.fst
        = t.filter (fun i => (slotResult paths decode embedOne i).isSome) := ih
    cases hs : slotResult paths decode embedOne j with
    | none => simp [writesFor, List.filterMap_cons, hs, List.filter_cons, ih2]
    | some v => simp [writesFor, List.filterMap_cons, hs, List.filter_cons, ih2]

theorem mem_writesFor {P Img V : Type} (paths : List (Option P))
    (decode : P → Option Img) (embedOne : Img → V) (order : List Nat)
    (i : Nat) (v : V) :
    (i, v) ∈ writesFor paths decode embedOne order ↔
      i ∈ order ∧ slotResult paths decode embedOne i = some v := by
  simp only [writesFor, List.mem_filterMap, Option.map_eq_some', Prod.mk.injEq]
  constructor
  · rintro ⟨x, hx, u, hu, hxi, huv⟩
    subst hxi
    subst huv
    exact ⟨hx, hu⟩
  · rintro ⟨hi, hs⟩
    exact ⟨i, hi, v, hs, rfl, rfl⟩

theorem applyWrites_vecs_length {V : Type} (ws : List (Nat × V)) :
    ∀ acc : Accumulator V, (applyWrites acc ws).vecs.length = acc.vecs.length := by
  induction ws with
  | nil => intro acc; rfl
  | cons w t ih =>
    intro acc
    show (applyWrites (writeSlot acc w.1 w.2) t).vecs.length = acc.vecs.length
    rw [ih]
    simp [writeSlot]

theorem applyWrites_good_length {V : Type} (ws : List (Nat × V)) :
    ∀ acc : Accumulator V, (applyWrites acc ws).good.length = acc.good.length := by
  induction ws with
  | nil => intro acc; rfl
  | cons w t ih =>
    intro acc
    show (applyWrites (writeSlot acc w.1 w.2) t).good.length = acc.good.length
    rw [ih]
    simp [writeSlot]

theorem applyWrites_untouched {V : Type} (ws : List (Nat × V)) (i : Nat) :
    ∀ acc : Accumulator V, (∀ w ∈ ws, w.1 ≠ i) →
      (applyWrites acc ws).vecs[i]? = acc.vecs[i]? ∧
      (applyWrites acc ws).good[i]? = acc.good[i]? := by
  induction ws with
  | nil => intro acc _; exact ⟨rfl, rfl⟩
  | cons w t ih =>
    intro acc h
    have hw : w.1 ≠ i := h w (List.mem_cons_self w t)
    have ht := ih (writeSlot acc w.1 w.2)
      (fun x hx => h x (List.mem_cons.mpr (Or.inr hx)))
    refine ⟨?_, ?_⟩
    · show (applyWrites (writeSlot acc w.1 w.2) t).vecs[i]? = acc.vecs[i]?
      rw [ht.1]
      simp [writeSlot, List.getElem?_set_ne hw]
    · show (applyWrites (writeSlot acc w.1 w.2) t).good[i]? = acc.good[i]?
      rw [ht.2]
      simp [writeSlot, List.getElem?_set_ne hw]

theorem applyWrites_written {V : Type} (ws : List (Nat × V)) (i : Nat) (v : V) :
    ∀ acc : Accumulator V, ((ws.map Prod.fst).Nodup) → (i, v) ∈ ws →
      i < acc.vecs.length → i < acc.good.length →
      (applyWrites acc ws).vecs[i]? = some v ∧
      (applyWrites acc ws).good[i]? = some true := by
  induction ws with
  | nil => intro acc _ hmem; cases hmem
  | cons w t ih =>
    intro acc hnd hmem hvl hgl
    rcases List.mem_cons.mp hmem with hw | ht
    · have hw2 : w = (i, v) := hw.symm
      subst hw2
      have hfst : ∀ x ∈ t, x.1 ≠ i := by
        intro x hx hxi
        have hmm : i ∈ t.map Prod.fst := by
          rw [← hxi]
          exact List.mem_map.mpr ⟨x, hx, rfl⟩
        exact (List.nodup_cons.mp (by simpa using hnd)).1 hmm
      have hun := applyWrites_untouched t i (writeSlot acc i v) hfst
      refine ⟨?_, ?_⟩
      · show (applyWrites (writeSlot acc i v) t).vecs[i]? = some v
        rw [hun.1]
        simp [writeSlot, List.getElem?_set_self hvl]
      · show (applyWrites (writeSlot acc i v) t).good[i]? = some true
        rw [hun.2]
        simp [writeSlot, List.getElem?_set_self hgl]
    · have hnd2 : (t.map Prod.fst).Nodup := (List.nodup_cons.mp (by simpa using hnd)).2
      exact ih (writeSlot acc w.1 w.2) hnd2 ht
        (by simpa [writeSlot] using hvl) (by simpa [writeSlot] using hgl)

theorem nodup_map_fst_writesFor {P Img V : Type} (paths : List (Option P))
    (decode : P → Option Img) (embedOne : Img → V) (order : List Nat)
    (hord : order.Nodup) :
    ((writesFor paths decode embedOne order).map Prod.fst).Nodup := by
  rw [map_fst_writesFor]
  exact List.Nodup.filter _ hord

/-- C3: throughout the embedding phase (after any number k of completed
writes) a position's flag is true exactly when that position has been
written, in which case its vector slot holds the embedding of its
successfully decoded image; unwritten positions keep the zero vector and
flag false.  At the end of the phase the flag is true exactly when
download, validation and decode all succeeded for the position, and every
position with flag false is excluded from the kept index rows. -/
theorem accumulator_flag_iff_meaningful {P Img V : Type} (paths : List (Option P))
    (decode : P → Option Img) (embedOne : Img → V) (v0 : V) :
    (∀ k i, i < paths.length →
      ((accAfter paths decode embedOne v0 k).good.getD i false = true ↔
        i ∈ ((writesFor paths decode embedOne (List.range paths.length)).take k).map
              Prod.fst) ∧
      ((accAfter paths decode embedOne v0 k).good.getD i false = true →
        slotResult paths decode embedOne i
          = some ((accAfter paths decode embedOne v0 k).vecs.getD i v0)) ∧
      ((accAfter paths decode embedOne v0 k).good.getD i false = false →
        (accAfter paths decode embedOne v0 k).vecs.getD i v0 = v0)) ∧
    (∀ i, i < paths.length →
      ((finalAcc paths decode embedOne v0).good.getD i false
          = (slotResult paths decode embedOne i).isSome) ∧
      ((finalAcc paths decode embedOne v0).good.getD i false = false →
        i ∉ kept (finalAcc paths decode embedOne v0).good)) := by
  have hnd : ((writesFor paths decode embedOne (List.range paths.length)).map
      Prod.fst).Nodup :=
    nodup_map_fst_writesFor paths decode embedOne _ (List.nodup_range _)
  constructor
  · intro k i hi
    have hndk : ((((writesFor paths decode embedOne
        (List.range paths.length)).take k)).map Prod.fst).Nodup := by
      rw [List.map_take]
      exact List.Nodup.sublist (List.take_sublist _ _) hnd
    by_cases hmem : i ∈ ((writesFor paths decode embedOne
        (List.range paths.length)).take k).map Prod.fst
    · obtain ⟨w, hw, hfst⟩ := List.mem_map.mp hmem
      have hwv : (i, w.2) ∈ (writesFor paths decode embedOne
          (List.range paths.length)).take k := by
        have : w = (i, w.2) := by
          rw [← hfst]
        rw [← this]
        exact hw
      have hwrit := applyWrites_written _ i w.2 (initAcc V paths.length v0)
        hndk hwv (by simp [initAcc, hi]) (by simp [initAcc, hi])
      have hslot : slotResult paths decode embedOne i = some w.2 := by
        have hmemws : (i, w.2) ∈ writesFor paths decode embedOne
            (List.range paths.length) :=
          (List.take_sublist _ _).mem hwv
        exact ((mem_writesFor paths decode embedOne _ i w.2).mp hmemws).2
      have hgt : (accAfter paths decode embedOne v0 k).good.getD i false = true :=
        getD_of_getElem?_eq _ i false true hwrit.2
      have hvt : (accAfter paths decode embedOne v0 k).vecs.getD i v0 = w.2 :=
        getD_of_getElem?_eq _ i v0 w.2 hwrit.1
      refine ⟨?_, ?_, ?_⟩
      · exact ⟨fun _ => hmem, fun _ => hgt⟩
      · intro _
        rw [hslot, hvt]
      · intro hfalse
        rw [hgt] at hfalse
        cases hfalse
    · have hfst : ∀ w ∈ (writesFor paths decode embedOne
          (List.range paths.length)).take k, w.1 ≠ i := by
        intro w hw hwi
        exact hmem (List.mem_map.mpr ⟨w, hw, hwi⟩)
      have hun := applyWrites_untouched _ i (initAcc V paths.length v0) hfst
      have hgood : (accAfter paths decode embedOne v0 k).good[i]? = some false := by
        rw [show (accAfter paths decode embedOne v0 k).good[i]?
            = (initAcc V paths.length v0).good[i]? from hun.2]
        simp [initAcc, hi]
      have hvec : (accAfter paths decode embedOne v0 k).vecs[i]? = some v0 := by
        rw [show (accAfter paths decode embedOne v0 k).vecs[i]?
            = (initAcc V paths.length v0).vecs[i]? from hun.1]
        simp [initAcc, hi]
      have hgf : (accAfter paths decode embedOne v0 k).good.getD i false = false :=
        getD_of_getElem?_eq _ i false false hgood
      have hvz : (accAfter paths decode embedOne v0 k).vecs.getD i v0 = v0 :=
        getD_of_getElem?_eq _ i v0 v0 hvec
      refine ⟨?_, ?_, ?_⟩
      · constructor
        · intro h
          rw [hgf] at h
          cases h
        · intro h
          exact absurd h hmem
      · intro h
        rw [hgf] at h
        cases h
      · intro _
        exact hvz
  · intro i hi
    have hchar : i ∈ (writesFor paths decode embedOne
        (List.range paths.length)).map Prod.fst ↔
        (slotResult paths decode embedOne i).isSome = true := by
      rw [map_fst_writesFor]
      simp [List.mem_filter, List.mem_range, hi]
    have hgood : (finalAcc paths decode embedOne v0).good.getD i false
        = (slotResult paths decode embedOne i).isSome := by
      unfold finalAcc
      by_cases hmem : i ∈ (writesFor paths decode embedOne
          (List.range paths.length)).map Prod.fst
      · obtain ⟨w, hw, hfst⟩ := List.mem_map.mp hmem
        have hwv : (i, w.2) ∈ writesFor paths decode embedOne
            (List.range paths.length) := by
          have : w = (i, w.2) := by rw [← hfst]
          rw [← this]
          exact hw
        have hwrit := applyWrites_written _ i w.2 (initAcc V paths.length v0)
          hnd hwv (by simp [initAcc, hi]) (by simp [initAcc, hi])
        rw [getD_of_getElem?_eq _ i false true hwrit.2, hchar.mp hmem]
      · have hfst : ∀ w ∈ writesFor paths decode embedOne
            (List.range paths.length), w.1 ≠ i := by
          intro w hw hwi
          exact hmem (List.mem_map.mpr ⟨w, hw, hwi⟩)
        have hun := applyWrites_untouched _ i (initAcc V paths.length v0) hfst
        have hg0 : (applyWrites (initAcc V paths.length v0)
            (writesFor paths decode embedOne (List.range paths.length))).good[i]?
              = some false := by
          rw [hun.2]
          simp [initAcc, hi]
        have hnotsome : (slotResult paths decode embedOne i).isSome = false := by
          cases hs : slotResult paths decode embedOne i with
          | none => rfl
          | some v => exact absurd (hchar.mpr (by rw [hs]; rfl)) hmem
        rw [getD_of_getElem?_eq _ i false false hg0, hnotsome]
    refine ⟨hgood, ?_⟩
    intro hfalse hkept
    have := (mem_kept _ i).mp hkept
    rw [hfalse] at this
    cases this.2

/-- C4: for the same record paths, decode results and per-image embedding
function, every completion order that is a permutation of the record
positions, chopped into arbitrary batches, produces exactly the final
accumulator of strictly sequential in-order processing. -/
theorem accumulator_order_independent {P Img V : Type} (paths : List (Option P))
    (decode : P → Option Img) (embedOne : Img → V) (v0 : V)
    (order : List Nat) (batches : List (List (Nat × V)))
    (hperm : order.Perm (List.range paths.length))
    (hb : batches.flatten = writesFor paths decode embedOne order) :
    runBatches (initAcc V paths.length v0) batches
      = finalAcc paths decode embedOne v0 := by
  have hflat : runBatches (initAcc V paths.length v0) batches
      = applyWrites (initAcc V paths.length v0) batches.flatten := by
    rw [runBatches, applyWrites, List.foldl_flatten]
    rfl
  rw [hflat, hb]
  have hordnd : order.Nodup := hperm.symm.nodup (List.nodup_range _)
  have hnd : ((writesFor paths decode embedOne order).map Prod.fst).Nodup :=
    nodup_map_fst_writesFor paths decode embedOne order hordnd
  have hinj := List.inj_on_of_nodup_map hnd
  have hpermw : (writesFor paths decode embedOne order).Perm
      (writesFor paths decode embedOne (List.range paths.length)) :=
    hperm.filterMap _
  exact hpermw.foldl_eq'
    (by
      intro x hx y hy z
      by_cases hxy : x.1 = y.1
      · have hxey : x = y := hinj hx hy hxy
        rw [hxey]
      · show writeSlot (writeSlot z x.1 x.2) y.1 y.2
            = writeSlot (writeSlot z y.1 y.2) x.1 x.2
        unfold writeSlot
        simp only
        rw [List.set_comm _ _ _ hxy, List.set_comm _ _ _ hxy])
    (initAcc V paths.length v0)

/-- C1: the identifiers handed to add_with_ids are exactly the dense
integers 0..M-1 where M is the number of kept (flag true) positions
listed in increasing record-position order, and for every identifier i
the stored vector row and the i-th metadata line are both drawn from the
same source record position kept[i]; the optional row normalization is a
per-row map and preserves this correspondence. -/
theorem build_index_ids_dense_and_aligned {V R : Type} (vecs : List V)
    (good : List Bool) (records : List R) (normf : V → V) (dv : V) (dr : R) :
    index_ids ((gather dv vecs (kept good)).map normf).length
        = List.range (kept good).length ∧
    ((gather dv vecs (kept good)).map normf).length = (kept good).length ∧
    (gather dr records (kept good)).length = (kept good).length ∧
    (∀ i : Nat, i ∈ kept good ↔ i < good.length ∧ good.getD i false = true) ∧
    (kept good).Pairwise (· < ·) ∧
    (∀ i : Nat, i < (kept good).length →
      ((gather dv vecs (kept good)).map normf)[i]?
          = some (normf (vecs.getD ((kept good).getD i 0) dv)) ∧
      (gather dr records (kept good))[i]?
          = some (records.getD ((kept good).getD i 0) dr)) := by
  refine ⟨?_, ?_, ?_, fun i => mem_kept good i, kept_sorted good, ?_⟩
  · simp [index_ids, gather]
  · simp [gather]
  · simp [gather]
  · intro i hlen
    have hk : (kept good)[i]? = some ((kept good).getD i 0) := by
      rw [List.getElem?_eq_getElem hlen, List.getD_eq_getElem?_getD,
        List.getElem?_eq_getElem hlen]
      rfl
    constructor
    · rw [List.getElem?_map]
      show ((kept good).map fun j => vecs.getD j dv)[i]?.map normf = _
      rw [List.getElem?_map, hk]
      rfl
    · show ((kept good).map fun j => records.getD j dr)[i]? = _
      rw [List.getElem?_map, hk]
      rfl

/-- Witness for build_index_ids_dense_and_aligned at a concrete build with
one unfilled position. -/
theorem build_index_ids_dense_and_aligned_witness :
    ((gather 0 [10, 20, 30] (kept [false, true, true])).map (fun v => v + 1))[0]?
        = some ([10, 20, 30].getD ((kept [false, true, true]).getD 0 0) 0 + 1) ∧
    (gather 0 [7, 8, 9] (kept [false, true, true]))[0]?
        = some ([7, 8, 9].getD ((kept [false, true, true]).getD 0 0) 0) :=
  (build_index_ids_dense_and_aligned [10, 20, 30] [false, true, true] [7, 8, 9]
    (fun v => v + 1) 0 0).2.2.2.2.2 0 (by decide)

/-- Witness for accumulator_flag_iff_meaningful at a concrete run with one
successful and one missing position. -/
theorem accumulator_flag_iff_meaningful_witness :
    ((finalAcc [some 1, none] (fun p => some p) (fun x => x * 2) 0).good.getD 0 false
        = (slotResult [some 1, none] (fun p => some p) (fun x => x * 2) 0).isSome) ∧
    ((finalAcc [some 1, none] (fun p => some p) (fun x => x * 2) 0).good.getD 1 false
        = (slotResult [some 1, none] (fun p => some p) (fun x => x * 2) 1).isSome) :=
  ⟨((accumulator_flag_iff_meaningful [some 1, none] (fun p => some p)
      (fun x => x * 2) 0).2 0 (by decide)).1,
   ((accumulator_flag_iff_meaningful [some 1, none] (fun p => some p)
      (fun x => x * 2) 0).2 1 (by decide)).1⟩

/-- Witness for accumulator_order_independent: an out-of-order completion
with one decode failure matches sequential processing. -/
theorem accumulator_order_independent_witness :
    runBatches (initAcc Nat 3 0) [[(0, 101)]]
      = finalAcc [some 1, none, some 3]
          (fun p => if p = 3 then none else some p) (fun x => x + 100) 0 :=
  accumulator_order_independent [some 1, none, some 3]
    (fun p => if p = 3 then none else some p) (fun x => x + 100) 0
    [2, 0, 1] [[(0, 101)]] (by decide) (by rfl)

namespace DownloadSession

theorem fetch_loop_attempts_le (base cap : Nat) (responses : Nat → Resp) :
    ∀ rl k, attemptsOf (fetch_loop base cap responses rl k).1 ≤ k + rl + 1 := by
  intro rl
  induction rl with
  | zero =>
    intro k
    cases hr : responses k with
    | success => simp [fetch_loop, hr, attemptsOf]
    | transient => simp [fetch_loop, hr, attemptsOf]
    | status c ra =>
      by_cases hc : c ∈ status_forcelist <;>
        simp [fetch_loop, hr, hc, attemptsOf]
  | succ rl ih =>
    intro k
    cases hr : responses k with
    | success => simp [fetch_loop, hr, attemptsOf]
    | transient =>
      have h := ih (k + 1)
      simp only [fetch_loop, hr]
      omega
    | status c ra =>
      by_cases hc : c ∈ status_forcelist
      · have h := ih (k + 1)
        simp only [fetch_loop, hr, hc, if_true]
        omega
      · simp [fetch_loop, hr, hc, attemptsOf]

theorem fetch_loop_delays (base cap : Nat) (responses : Nat → Resp) :
    ∀ rl k, ∃ m, m ≤ rl ∧
      (fetch_loop base cap responses rl k).2 =
        (List.range m).map (fun i => sleep_for base cap (k + i) (responses (k + i))) := by
  intro rl
  induction rl with
  | zero =>
    intro k
    refine ⟨0, Nat.le_refl 0, ?_⟩
    cases hr : responses k with
    | success => simp [fetch_loop, hr]
    | transient => simp [fetch_loop, hr]
    | status c ra =>
      by_cases hc : c ∈ status_forcelist <;> simp [fetch_loop, hr, hc]
  | succ rl ih =>
    intro k
    cases hr : responses k with
    | success => exact ⟨0, Nat.zero_le _, by simp [fetch_loop, hr]⟩
    | transient =>
      obtain ⟨m, hm, he⟩ := ih (k + 1)
      refine ⟨m + 1, by omega, ?_⟩
      simp only [fetch_loop, hr, he, List.range_succ_eq_map, List.map_cons,
        List.map_map]
      congr 1
      · simp [hr]
      · apply List.map_congr_left
        intro i _
        simp only [Function.comp_apply]
        have h2 : k + 1 + i = k + Nat.succ i := by omega
        rw [h2]
    | status c ra =>
      by_cases hc : c ∈ status_forcelist
      · obtain ⟨m, hm, he⟩ := ih (k + 1)
        refine ⟨m + 1, by omega, ?_⟩
        simp only [fetch_loop, hr, hc, if_true, he, List.range_succ_eq_map,
          List.map_cons, List.map_map]
        congr 1
        · simp [hr]
        · apply List.map_congr_left
          intro i _
          simp only [Function.comp_apply]
          have h2 : k + 1 + i = k + Nat.succ i := by omega
          rw [h2]
      · exact ⟨0, Nat.zero_le _, by simp [fetch_loop, hr, hc]⟩

theorem fetch_loop_exhausted (base cap : Nat) (responses : Nat → Resp)
    (hall : ∀ j, retryable (responses j) = true) :
    ∀ rl k, (fetch_loop base cap responses rl k).1 = .exhausted (k + rl + 1) := by
  intro rl
  induction rl with
  | zero =>
    intro k
    cases hr : responses k with
    | success =>
      have h := hall k
      rw [hr] at h
      simp [retryable] at h
    | transient => simp [fetch_loop, hr]
    | status c ra =>
      have h := hall k
      rw [hr] at h
      simp only [retryable, decide_eq_true_eq] at h
      simp [fetch_loop, hr, h]
  | succ rl ih =>
    intro k
    cases hr : responses k with
    | success =>
      have h := hall k
      rw [hr] at h
      simp [retryable] at h
    | transient =>
      have h := ih (k + 1)
      simp only [fetch_loop, hr, h]
      congr 1
      omega
    | status c ra =>
      have hc := hall k
      rw [hr] at hc
      simp only [retryable, decide_eq_true_eq] at hc
      have h := ih (k + 1)
      simp only [fetch_loop, hr, hc, if_true, h]
      congr 1
      omega

/-- The session fetch path behaves as the spec demands: it retries
exactly the transient conditions (connection-level failures and HTTP
429/500/502/503/504 per the status_forcelist configured in
DownloadSession.__init__), never exceeds the configured attempt budget,
performs no retry on a non-transient client error such as 404, and
sleeps per-retry delays that honor a server retry-after hint when
present and otherwise follow a doubling, capped exponential backoff;
persistent transient conditions exhaust the budget.  This covers only
fetches that go through a DownloadSession; the legacy no-session loop of
download_image violates the policy, see download_image_retries_on_404. -/
theorem fetch_retry_policy (max_retries base cap : Nat) (responses : Nat → Resp) :
    (retryable (.status 429 none) = true ∧ retryable (.status 500 none) = true ∧
     retryable (.status 502 none) = true ∧ retryable (.status 503 none) = true ∧
     retryable (.status 504 none) = true ∧ retryable .transient = true ∧
     retryable (.status 404 none) = false ∧ respect_retry_after_header = true) ∧
    attemptsOf (fetch max_retries base cap responses).1 ≤ max_retries + 1 ∧
    (∀ c ra, c ∉ status_forcelist → responses 0 = .status c ra →
      fetch max_retries base cap responses = (.nonRetryable c 1, [])) ∧
    (∃ m, m ≤ max_retries ∧
      (fetch max_retries base cap responses).2 =
        (List.range m).map (fun i => sleep_for base cap i (responses i))) ∧
    (∀ k, sleep_for base cap k .transient = min cap (base * 2 ^ k)) ∧
    (∀ k c ra, sleep_for base cap k (.status c (some ra)) = ra) ∧
    ((∀ j, retryable (responses j) = true) →
      (fetch max_retries base cap responses).1 = .exhausted (max_retries + 1)) := by
  refine ⟨⟨rfl, rfl, rfl, rfl, rfl, rfl, rfl, rfl⟩, ?_, ?_, ?_, ?_, ?_, ?_⟩
  · have h := fetch_loop_attempts_le base cap responses max_retries 0
    simpa [fetch] using h
  · intro c ra hc h0
    cases max_retries with
    | zero => simp [fetch, fetch_loop, h0, hc]
    | succ n => simp [fetch, fetch_loop, h0, hc]
  · obtain ⟨m, hm, he⟩ := fetch_loop_delays base cap responses max_retries 0
    refine ⟨m, hm, ?_⟩
    rw [fetch, he]
    apply List.map_congr_left
    intro i _
    simp
  · intro k
    rfl
  · intro k c ra
    rfl
  · intro hall
    have h := fetch_loop_exhausted base cap responses hall max_retries 0
    simpa [fetch] using h

/-- Witness for fetch_retry_policy: a 404 is returned after a single
attempt with no retry, while an endless stream of transient failures
exhausts the default budget of five retries after six attempts. -/
theorem fetch_retry_policy_witness :
    fetch 5 1 60 (fun _ => .status 404 none) = (.nonRetryable 404 1, []) ∧
    (fetch 5 1 60 (fun _ => .transient)).1 = .exhausted 6 :=
  ⟨(fetch_retry_policy 5 1 60 (fun _ => .status 404 none)).2.2.1 404 none
      (by decide) rfl,
   (fetch_retry_policy 5 1 60 (fun _ => .transient)).2.2.2.2.2.2 (fun _ => rfl)⟩

end DownloadSession

/-- C5 failing-input evaluation: the pipeline fetch path taken by
build_index (download_image with no session) retries an HTTP 404.  With
the default budget of 3 retries and a server answering 404 on every
attempt, the legacy loop makes 3 attempts and sleeps the linear,
uncapped delays 0.8s and 1.6s (8 and 16 tenths) with no retry-after
handling, then fails — whereas the configured DownloadSession returns
the 404 after a single attempt with no retry, as the claim demands. -/
theorem download_image_retries_on_404 :
    legacy_raises (DownloadSession.Resp.status 404 none) = true ∧
    download_image_retry 3 (fun _ => DownloadSession.Resp.status 404 none)
      = (false, 3, [8, 16]) ∧
    DownloadSession.fetch 5 1 60 (fun _ => DownloadSession.Resp.status 404 none)
      = (DownloadSession.FetchResult.nonRetryable 404 1, []) := by
  decide


/-- Witness for validation_independent_of_flag: a corrupt cached file is
excluded even with the flag off, while the manifest still reports zero
validation failures. -/
theorem validation_independent_of_flag_witness :
    (scan_keepsPosition false [⟨true, 5, some "corrupt", none⟩])[0]? = some false ∧
    (cache_scan false [⟨true, 5, some "corrupt", none⟩]).2.2.1 = 1 ∧
    manifest_validation_failures false
      ((cache_scan false [⟨true, 5, some "corrupt", none⟩]).2.2.1) = 0 :=
  ⟨(validation_independent_of_flag [⟨true, 5, some "corrupt", none⟩]).2.1 0 "corrupt" rfl,
   rfl,
   (validation_independent_of_flag [⟨true, 5, some "corrupt", none⟩]).2.2⟩

/-! ### Theorems about atomic cache writes and the legacy path (C2) -/

namespace AtomicWrite

theorem writeStates_dropLast_target (fs : FS) (chunks : List (List Nat)) :
    ∀ s ∈ (writeStates fs chunks).dropLast, s.target = fs.target := by
  have hdl : (writeStates fs chunks).dropLast
      = [fs, { fs with temp := some [] }]
        ++ (chunkProgress [] chunks).map (fun t => { fs with temp := some t }) := by
    rw [writeStates]
    exact List.dropLast_concat
  rw [hdl]
  intro s hs
  rcases List.mem_append.mp hs with h | h
  · rcases List.mem_cons.mp h with h1 | h1
    · rw [h1]
    · rcases List.mem_cons.mp h1 with h2 | h2
      · rw [h2]
      · cases h2
  · obtain ⟨t, _, ht⟩ := List.mem_map.mp h
    rw [← ht]

/-- Atomicity of atomic_write_stream: a completed call installs the full
streamed content and removes the temporary file; an exception at any
execution point reports failure, removes the temporary file, and leaves
the target path exactly as it was. -/
theorem atomic_write_stream_no_partial (fs : FS) (chunks : List (List Nat)) (k : Nat) :
    (atomic_write_stream fs chunks).2 = true ∧
    (atomic_write_stream fs chunks).1.target = some (tempFinal chunks) ∧
    (atomic_write_stream fs chunks).1.temp = none ∧
    (atomic_write_stream_fail fs chunks k).2 = false ∧
    (atomic_write_stream_fail fs chunks k).1.temp = none ∧
    (atomic_write_stream_fail fs chunks k).1.target = fs.target := by
  refine ⟨rfl, rfl, rfl, rfl, rfl, ?_⟩
  show ((writeStates fs chunks).dropLast.getD k fs).target = fs.target
  cases hdk : (writeStates fs chunks).dropLast[k]? with
  | none => rw [List.getD_eq_getElem?_getD, hdk]; rfl
  | some s =>
    rw [getD_of_getElem?_eq _ k fs s hdk]
    exact writeStates_dropLast_target fs chunks s (List.getElem?_mem hdk)

/-- C2 failing-input evaluation: the legacy no-session path of
download_image, as called by build_index, writes chunks directly to the
target path, so a stream failing mid-download on every attempt reports
failure while leaving a present-and-non-empty partial file at the target
path; the atomic_write_stream path used with a session leaves the target
absent in the same situation. -/
theorem download_image_legacy_partial_file :
    download_image_legacy none
        [LegacyAttempt.streamed [[1, 2]] false, LegacyAttempt.streamed [[1]] false,
         LegacyAttempt.streamed [[1, 2]] false]
      = (some [1, 2], false) ∧
    cacheValid (some ([1, 2] : List Nat)) = true ∧
    (atomic_write_stream_fail ⟨none, none⟩ [[1, 2]] 2).1.target = none ∧
    (atomic_write_stream_fail ⟨none, none⟩ [[1, 2]] 2).2 = false := by
  decide

end AtomicWrite

/-! ### Theorems about the decode and embedding scheduler (C8) -/

namespace Scheduler

theorem countSubmit_cons (e : Ev) (t : List Ev) :
    countSubmit (e :: t) = countSubmit t + (if isSubmit e then 1 else 0) := rfl

theorem countCollect_cons (e : Ev) (t : List Ev) :
    countCollect (e :: t) = countCollect t + (if isCollect e then 1 else 0) := rfl

theorem countSubmit_submit (i : Nat) (t : List Ev) :
    countSubmit (Ev.submit i :: t) = countSubmit t + 1 := rfl

theorem countSubmit_collect (i : Nat) (t : List Ev) :
    countSubmit (Ev.collect i :: t) = countSubmit t := rfl

theorem countSubmit_embedStart (b : List Nat) (t : List Ev) :
    countSubmit (Ev.embedStart b :: t) = countSubmit t := rfl

theorem countSubmit_embedEnd (t : List Ev) :
    countSubmit (Ev.embedEnd :: t) = countSubmit t := rfl

theorem countCollect_submit (i : Nat) (t : List Ev) :
    countCollect (Ev.submit i :: t) = countCollect t := rfl

theorem countCollect_collect (i : Nat) (t : List Ev) :
    countCollect (Ev.collect i :: t) = countCollect t + 1 := rfl

theorem countCollect_embedStart (b : List Nat) (t : List Ev) :
    countCollect (Ev.embedStart b :: t) = countCollect t := rfl

theorem countCollect_embedEnd (t : List Ev) :
    countCollect (Ev.embedEnd :: t) = countCollect t := rfl

theorem countSubmit_append (l1 l2 : List Ev) :
    countSubmit (l1 ++ l2) = countSubmit l1 + countSubmit l2 := by
  induction l1 with
  | nil => simp [countSubmit]
  | cons e t ih => simp only [List.cons_append, countSubmit_cons, ih]; omega

theorem countCollect_append (l1 l2 : List Ev) :
    countCollect (l1 ++ l2) = countCollect l1 + countCollect l2 := by
  induction l1 with
  | nil => simp [countCollect]
  | cons e t ih => simp only [List.cons_append, countCollect_cons, ih]; omega

theorem countSubmit_take_le (l : List Ev) : ∀ n : Nat,
    countSubmit (l.take n) ≤ countSubmit l := by
  induction l with
  | nil => intro n; simp
  | cons e t ih =>
    intro n
    cases n with
    | zero => simp [countSubmit]
    | succ n =>
      rw [List.take_succ_cons, countSubmit_cons, countSubmit_cons]
      have := ih n
      omega

theorem countCollect_take_le (l : List Ev) : ∀ n : Nat,
    countCollect (l.take n) ≤ countCollect l := by
  induction l with
  | nil => intro n; simp
  | cons e t ih =>
    intro n
    cases n with
    | zero => simp [countCollect]
    | succ n =>
      rw [List.take_succ_cons, countCollect_cons, countCollect_cons]
      have := ih n
      omega

theorem refill_spec (cap : Nat) :
    ∀ (rem pending : List Nat), pending.length ≤ cap →
      countCollect (refill cap rem pending).1 = 0 ∧
      countSubmit (refill cap rem pending).1 + pending.length
        = (refill cap rem pending).2.2.length ∧
      (refill cap rem pending).2.2.length ≤ cap := by
  intro rem
  induction rem with
  | nil =>
    intro pending h
    exact ⟨rfl, by simp [refill, countSubmit], h⟩
  | cons r rs ih =>
    intro pending h
    by_cases hlt : pending.length < cap
    · obtain ⟨h1, h2, h3⟩ := ih (pending ++ [r]) (by simp; omega)
      simp only [refill, hlt, if_true]
      refine ⟨?_, ?_, h3⟩
      · rw [countCollect_submit]
        exact h1
      · rw [countSubmit_submit]
        simp only [List.length_append, List.length_cons, List.length_nil] at h2
        omega
    · simp only [refill, hlt, if_false]
      exact ⟨rfl, by simp [countSubmit], h⟩

theorem refill_events_submit (cap : Nat) :
    ∀ (rem pending : List Nat), ∀ e ∈ (refill cap rem pending).1, isSubmit e = true := by
  intro rem
  induction rem with
  | nil => intro pending e he; cases he
  | cons r rs ih =>
    intro pending e he
    by_cases hlt : pending.length < cap
    · simp only [refill, hlt, if_true] at he
      rcases List.mem_cons.mp he with h | h
      · rw [h]; rfl
      · exact ih (pending ++ [r]) e h
    · simp only [refill, hlt, if_false] at he
      cases he

theorem collectGroup_spec (batchSize : Nat) :
    ∀ (cs pending batch : List Nat),
      countSubmit (collectGroup batchSize cs pending batch).1 = 0 ∧
      pending.length = (collectGroup batchSize cs pending batch).2.1.length
          + countCollect (collectGroup batchSize cs pending batch).1 := by
  intro cs
  induction cs with
  | nil => intro pending batch; exact ⟨rfl, by simp [collectGroup, countCollect]⟩
  | cons c cs ih =>
    intro pending batch
    by_cases hc : c ∈ pending
    · have hpos : 0 < pending.length := List.length_pos_of_mem hc
      have hlen : (pending.erase c).length = pending.length - 1 :=
        List.length_erase_of_mem hc
      by_cases hb : (batch ++ [c]).length = batchSize
      · obtain ⟨h1, h2⟩ := ih (pending.erase c) []
        simp only [collectGroup, hc, if_true, hb]
        constructor
        · rw [countSubmit_collect, countSubmit_embedStart, countSubmit_embedEnd]
          exact h1
        · rw [countCollect_collect, countCollect_embedStart, countCollect_embedEnd]
          omega
      · obtain ⟨h1, h2⟩ := ih (pending.erase c) (batch ++ [c])
        simp only [collectGroup, hc, if_true, hb, if_false]
        constructor
        · rw [countSubmit_collect]
          exact h1
        · rw [countCollect_collect]
          omega
    · simp only [collectGroup, hc, if_false]
      exact ih pending batch

theorem endsWithStart_cons_cons (x y : Ev) (t : List Ev) :
    endsWithStart (x :: y :: t) = endsWithStart (y :: t) := by
  cases x <;> rfl

theorem embedsAtomicB_append :
    ∀ (N : Nat) (l1 l2 : List Ev), l1.length ≤ N → embedsAtomicB l1 = true →
      endsWithStart l1 = false → embedsAtomicB l2 = true →
      embedsAtomicB (l1 ++ l2) = true := by
  intro N
  induction N with
  | zero =>
    intro l1 l2 hl h1 _ h2
    have hnil : l1 = [] := List.eq_nil_of_length_eq_zero (Nat.le_zero.mp hl)
    rw [hnil]
    exact h2
  | succ N ih =>
    intro l1 l2 hl h1 hend h2
    cases l1 with
    | nil => exact h2
    | cons e rest =>
      cases e with
      | submit i =>
        have hr : embedsAtomicB rest = true := h1
        have hre : endsWithStart rest = false := by
          cases rest with
          | nil => rfl
          | cons y t => rw [← endsWithStart_cons_cons (Ev.submit i) y t]; exact hend
        have := ih rest l2 (by simp at hl; omega) hr hre h2
        exact this
      | collect i =>
        have hr : embedsAtomicB rest = true := h1
        have hre : endsWithStart rest = false := by
          cases rest with
          | nil => rfl
          | cons y t => rw [← endsWithStart_cons_cons (Ev.collect i) y t]; exact hend
        exact ih rest l2 (by simp at hl; omega) hr hre h2
      | embedEnd =>
        have hr : embedsAtomicB rest = true := h1
        have hre : endsWithStart rest = false := by
          cases rest with
          | nil => rfl
          | cons y t => rw [← endsWithStart_cons_cons Ev.embedEnd y t]; exact hend
        exact ih rest l2 (by simp at hl; omega) hr hre h2
      | embedStart b =>
        cases rest with
        | nil => cases hend
        | cons e2 t =>
          cases e2 with
          | embedEnd =>
            have ht : embedsAtomicB t = true := h1
            have hte : endsWithStart t = false := by
              cases t with
              | nil => rfl
              | cons y u =>
                rw [← endsWithStart_cons_cons Ev.embedEnd y u]
                rw [← endsWithStart_cons_cons (Ev.embedStart b) Ev.embedEnd (y :: u)]
                exact hend
            have := ih t l2 (by simp at hl; omega) ht hte h2
            show embedsAtomicB (Ev.embedStart b :: Ev.embedEnd :: (t ++ l2)) = true
            exact this
          | submit i => cases h1
          | collect i => cases h1
          | embedStart b2 => cases h1

theorem embedsAtomic_of_all_submit :
    ∀ l : List Ev, (∀ e ∈ l, isSubmit e = true) →
      embedsAtomicB l = true ∧ endsWithStart l = false := by
  intro l
  induction l with
  | nil => intro _; exact ⟨rfl, rfl⟩
  | cons e t ih =>
    intro h
    have he := h e (List.mem_cons_self e t)
    have ht := ih (fun x hx => h x (List.mem_cons.mpr (Or.inr hx)))
    cases e with
    | submit i =>
      refine ⟨ht.1, ?_⟩
      cases t with
      | nil => rfl
      | cons y u => rw [endsWithStart_cons_cons]; exact ht.2
    | collect i => cases he
    | embedStart b => cases he
    | embedEnd => cases he

theorem collectGroup_atomic (batchSize : Nat) :
    ∀ (cs pending batch : List Nat),
      embedsAtomicB (collectGroup batchSize cs pending batch).1 = true ∧
      endsWithStart (collectGroup batchSize cs pending batch).1 = false := by
  intro cs
  induction cs with
  | nil => intro pending batch; exact ⟨rfl, rfl⟩
  | cons c cs ih =>
    intro pending batch
    by_cases hc : c ∈ pending
    · by_cases hb : (batch ++ [c]).length = batchSize
      · obtain ⟨h1, h2⟩ := ih (pending.erase c) []
        simp only [collectGroup, hc, if_true, hb]
        constructor
        · show embedsAtomicB (Ev.collect c :: Ev.embedStart (batch ++ [c])
              :: Ev.embedEnd :: (collectGroup batchSize cs (pending.erase c) []).1) = true
          have : embedsAtomicB (Ev.embedStart (batch ++ [c])
              :: Ev.embedEnd :: (collectGroup batchSize cs (pending.erase c) []).1)
              = embedsAtomicB (collectGroup batchSize cs (pending.erase c) []).1 := rfl
          rw [show embedsAtomicB (Ev.collect c :: Ev.embedStart (batch ++ [c])
              :: Ev.embedEnd :: (collectGroup batchSize cs (pending.erase c) []).1)
              = embedsAtomicB (Ev.embedStart (batch ++ [c])
                :: Ev.embedEnd :: (collectGroup batchSize cs (pending.erase c) []).1) from rfl,
            this]
          exact h1
        · rw [endsWithStart_cons_cons, endsWithStart_cons_cons]
          cases hres : (collectGroup batchSize cs (pending.erase c) []).1 with
          | nil => rfl
          | cons y u =>
            rw [endsWithStart_cons_cons]
            rw [hres] at h2
            exact h2
      · obtain ⟨h1, h2⟩ := ih (pending.erase c) (batch ++ [c])
        simp only [collectGroup, hc, if_true, hb, if_false]
        constructor
        · exact h1
        · cases hres : (collectGroup batchSize cs (pending.erase c) (batch ++ [c])).1 with
          | nil => rfl
          | cons y u =>
            rw [endsWithStart_cons_cons]
            rw [hres] at h2
            exact h2
    · simp only [collectGroup, hc, if_false]
      exact ih pending batch

theorem flushBatch_spec (batch : List Nat) :
    embedsAtomicB (flushBatch batch) = true ∧
    endsWithStart (flushBatch batch) = false ∧
    countSubmit (flushBatch batch) = 0 ∧
    countCollect (flushBatch batch) = 0 := by
  unfold flushBatch
  by_cases hb : batch.isEmpty
  · simp only [hb, if_true]
    exact ⟨rfl, rfl, rfl, rfl⟩
  · simp only [hb, if_false]
    exact ⟨rfl, rfl, rfl, rfl⟩

theorem schedLoop_cap (cap batchSize : Nat) :
    ∀ (schedule : List (List Nat)) (remaining pending batch : List Nat),
      pending.length ≤ cap → ∀ n,
      countSubmit ((schedLoop cap batchSize schedule remaining pending batch).take n)
          + pending.length
        ≤ countCollect ((schedLoop cap batchSize schedule remaining pending batch).take n)
          + cap := by
  intro schedule
  induction schedule with
  | nil =>
    intro rem pending batch h n
    by_cases hp : pending.isEmpty
    · simp only [schedLoop, hp, if_true]
      have hs := countSubmit_take_le (flushBatch batch) n
      have h0 := (flushBatch_spec batch).2.2.1
      omega
    · have hpf : pending.isEmpty = false := by simpa using hp
      simp only [schedLoop, hpf, Bool.false_eq_true, if_false, List.take_nil]
      simp only [show countSubmit ([] : List Ev) = 0 from rfl,
        show countCollect ([] : List Ev) = 0 from rfl]
      omega
  | cons cs rest ih =>
    intro rem pending batch h n
    by_cases hp : pending.isEmpty
    · simp only [schedLoop, hp, if_true]
      have hs := countSubmit_take_le (flushBatch batch) n
      have h0 := (flushBatch_spec batch).2.2.1
      omega
    · have hpf : pending.isEmpty = false := by simpa using hp
      simp only [schedLoop, hpf, Bool.false_eq_true, if_false]
      obtain ⟨hc1, hc2⟩ := collectGroup_spec batchSize cs pending batch
      have hcolle : (collectGroup batchSize cs pending batch).2.1.length ≤ cap := by
        omega
      obtain ⟨hr1, hr2, hr3⟩ := refill_spec cap rem
        (collectGroup batchSize cs pending batch).2.1 hcolle
      rw [List.take_append_eq_append_take, List.take_append_eq_append_take,
        countSubmit_append, countSubmit_append,
        countCollect_append, countCollect_append]
      by_cases hn1 : n ≤ (collectGroup batchSize cs pending batch).1.length
      · have hz1 : n - (collectGroup batchSize cs pending batch).1.length = 0 := by omega
        rw [hz1]
        simp only [Nat.zero_sub, List.take_zero]
        have ha1 := countSubmit_take_le (collectGroup batchSize cs pending batch).1 n
        simp only [show countSubmit ([] : List Ev) = 0 from rfl,
          show countCollect ([] : List Ev) = 0 from rfl]
        omega
      · have hfull : (collectGroup batchSize cs pending batch).1.take n
            = (collectGroup batchSize cs pending batch).1 :=
          List.take_of_length_le (by omega)
        rw [hfull]
        have hb1 := countSubmit_take_le
          (refill cap rem (collectGroup batchSize cs pending batch).2.1).1
          (n - (collectGroup batchSize cs pending batch).1.length)
        have hih := ih
          (refill cap rem (collectGroup batchSize cs pending batch).2.1).2.1
          (refill cap rem (collectGroup batchSize cs pending batch).2.1).2.2
          (collectGroup batchSize cs pending batch).2.2 hr3
          (n - (collectGroup batchSize cs pending batch).1.length
            - (refill cap rem (collectGroup batchSize cs pending batch).2.1).1.length)
        omega

theorem schedLoop_atomic (cap batchSize : Nat) :
    ∀ (schedule : List (List Nat)) (remaining pending batch : List Nat),
      embedsAtomicB (schedLoop cap batchSize schedule remaining pending batch) = true := by
  intro schedule
  induction schedule with
  | nil =>
    intro rem pending batch
    by_cases hp : pending.isEmpty
    · simp only [schedLoop, hp, if_true]
      exact (flushBatch_spec batch).1
    · have hpf : pending.isEmpty = false := by simpa using hp
      simp only [schedLoop, hpf, Bool.false_eq_true, if_false]
      rfl
  | cons cs rest ih =>
    intro rem pending batch
    by_cases hp : pending.isEmpty
    · simp only [schedLoop, hp, if_true]
      exact (flushBatch_spec batch).1
    · have hpf : pending.isEmpty = false := by simpa using hp
      simp only [schedLoop, hpf, Bool.false_eq_true, if_false]
      have hcol := collectGroup_atomic batchSize cs pending batch
      have hrefsub := refill_events_submit cap rem
        (collectGroup batchSize cs pending batch).2.1
      have href := embedsAtomic_of_all_submit _ hrefsub
      have hinner := embedsAtomicB_append
        (refill cap rem (collectGroup batchSize cs pending batch).2.1).1.length
        (refill cap rem (collectGroup batchSize cs pending batch).2.1).1
        (schedLoop cap batchSize rest
          (refill cap rem (collectGroup batchSize cs pending batch).2.1).2.1
          (refill cap rem (collectGroup batchSize cs pending batch).2.1).2.2
          (collectGroup batchSize cs pending batch).2.2)
        (Nat.le_refl _) href.1 href.2 (ih _ _ _)
      exact embedsAtomicB_append
        (collectGroup batchSize cs pending batch).1.length
        (collectGroup batchSize cs pending batch).1 _
        (Nat.le_refl _) hcol.1 hcol.2 hinner

/-- C8 (amended): throughout the scheduler run the number of in-flight
decode tasks (submitted but not yet collected) never exceeds the
configured prefetch cap, and every encode_images call is an atomic step
of the scheduler thread: its start and end events are adjacent in the
trace, so new decode tasks are admitted between embedding calls (the
previously admitted tasks, up to the cap, remain in flight while a batch
embeds), not during them. -/
theorem scheduler_cap_and_atomic_embed (cap batchSize : Nat) (valids : List Nat)
    (schedule : List (List Nat)) :
    (∀ n, countSubmit ((schedTrace cap batchSize valids schedule).take n)
        ≤ countCollect ((schedTrace cap batchSize valids schedule).take n) + cap) ∧
    embedsAtomicB (schedTrace cap batchSize valids schedule) = true := by
  obtain ⟨hr1, hr2, hr3⟩ := refill_spec cap valids [] (Nat.zero_le cap)
  simp only [List.length_nil] at hr2
  constructor
  · intro n
    unfold schedTrace
    rw [List.take_append_eq_append_take, countSubmit_append, countCollect_append]
    by_cases hn1 : n ≤ (refill cap valids []).1.length
    · have hz1 : n - (refill cap valids []).1.length = 0 := by omega
      rw [hz1]
      simp only [List.take_zero]
      have ha1 := countSubmit_take_le (refill cap valids []).1 n
      simp only [show countSubmit ([] : List Ev) = 0 from rfl,
        show countCollect ([] : List Ev) = 0 from rfl]
      omega
    · have hfull : (refill cap valids []).1.take n = (refill cap valids []).1 :=
        List.take_of_length_le (by omega)
      rw [hfull]
      have hloop := schedLoop_cap cap batchSize schedule
        (refill cap valids []).2.1 (refill cap valids []).2.2 [] hr3
        (n - (refill cap valids []).1.length)
      omega
  · unfold schedTrace
    have hrefsub := refill_events_submit cap valids []
    have href := embedsAtomic_of_all_submit _ hrefsub
    exact embedsAtomicB_append (refill cap valids []).1.length
      (refill cap valids []).1 _ (Nat.le_refl _) href.1 href.2
      (schedLoop_atomic cap batchSize schedule _ _ _)

/-- C8 counterexample to the claim as stated: in a concrete run with cap
2, batch size 2 and four records, the trace embeds the first full batch
while two more records await submission and the in-flight count is zero
(below the cap), yet no submit event occurs during any embedding call —
the next submission happens only after embedEnd.  So admission of new
decode tasks does wait for the in-progress embedding call to finish. -/
theorem scheduler_admission_waits_for_embed_cx :
    hasSubmitDuringEmbed (schedTrace 2 2 [0, 1, 2, 3] [[0, 1], [2, 3]]) = false ∧
    (schedTrace 2 2 [0, 1, 2, 3] [[0, 1], [2, 3]])[4]?
      = some (Ev.embedStart [0, 1]) ∧
    (schedTrace 2 2 [0, 1, 2, 3] [[0, 1], [2, 3]])[5]? = some Ev.embedEnd ∧
    (schedTrace 2 2 [0, 1, 2, 3] [[0, 1], [2, 3]])[6]? = some (Ev.submit 2) ∧
    countSubmit ((schedTrace 2 2 [0, 1, 2, 3] [[0, 1], [2, 3]]).take 5) = 2 ∧
    countCollect ((schedTrace 2 2 [0, 1, 2, 3] [[0, 1], [2, 3]]).take 5) = 2 := by
  decide

end Scheduler

end MtgImageDb
